import Mathlib

/-!
Verification of the deptox dependency-scanner core (Rust, `src/src-tauri`).

The Rust sources are shallowly embedded: strings are lists of characters,
`u64`/`usize` arithmetic is `Nat` with an explicit `% 2 ^ 64` where the code
can wrap, filesystem state is passed explicitly (either as a tree of typed
entries or as abstract query functions instantiated concretely in witnesses),
and the event-driven loops of the scan controller consume explicit traces of
the events the running code would observe.
-/

namespace Deptox

/-- Character-list strings: the shallow embedding of Rust string values. -/
abbrev Str := List Char

/-- The wildcard character of the exclude-pattern matcher. -/
def STAR : Char := '*'

/-- The platform path separator, `std::path::MAIN_SEPARATOR` on Unix. -/
def MAIN_SEPARATOR : Char := '/'

/-- Embedding of Rust `str::split(c)`: split on every occurrence of `c`,
keeping empty pieces exactly as Rust's `split` does (so splitting `"*"` on
`'*'` yields two empty pieces, and splitting `""` yields one). -/
def splitOnChar (c : Char) : Str → List Str
  | [] => [[]]
  | a :: rest =>
    match splitOnChar c rest with
    | [] => [[]]
    | s :: ss => if a = c then [] :: s :: ss else (a :: s) :: ss

/-- Interleaving a separator between pieces; inverse of `splitOnChar`. -/
def interC (c : Char) : List Str → Str
  | [] => []
  | [q] => q
  | q :: qs => q ++ c :: interC c qs

/-- Embedding of Rust `str::starts_with(p)`: `p` is a leading run of `l`. -/
def startsWithL : Str → Str → Bool
  | _, [] => true
  | [], _ :: _ => false
  | a :: l, b :: p => a == b && startsWithL l p

/-- Embedding of Rust `str::ends_with(p)`, via reversal. -/
def endsWithL (l p : Str) : Bool := startsWithL l.reverse p.reverse

/-- Embedding of Rust `str::find(p)`: index of the first occurrence. -/
def findSub (needle : Str) : Str → Option Nat
  | [] => if startsWithL [] needle then some 0 else none
  | a :: t =>
    if startsWithL (a :: t) needle then some 0
    else (findSub needle t).map (fun i => i + 1)

/-- Embedding of Rust `str::contains(p)` (substring containment). -/
def containsL (hay needle : Str) : Bool := (findSub needle hay).isSome

/-- The leading-run (prefix) relation as a proposition. -/
def PrefixP (p l : Str) : Prop := ∃ t, l = p ++ t

/-- The trailing-run (suffix) relation as a proposition. -/
def SuffixP (p l : Str) : Prop := ∃ w, l = w ++ p

/-- The substring relation as a proposition. -/
def InfixP (p l : Str) : Prop := ∃ u v, l = u ++ p ++ v

/-- Rust `pattern.starts_with` applied to the star character. -/
def startsWithStar (pattern : Str) : Bool :=
  match pattern with
  | c :: _ => c == STAR
  | [] => false

/-- Rust `pattern.ends_with` applied to the star character. -/
def endsWithStar (pattern : Str) : Bool :=
  match pattern.getLast? with
  | some c => c == STAR
  | none => false

/-- The `for (index, part)` loop of `matches_wildcard_pattern`
(`scanner/core.rs`): state is the enumeration index, the pieces still to be
processed, the unconsumed run of the path, and the `first` flag, which is
cleared after the first non-empty piece is handled. -/
def matchLoop (pattern : Str) (total : Nat) :
    Nat → List Str → Str → Bool → Bool
  | _, [], _, _ => true
  | index, part :: rest, remaining, first =>
    if part.isEmpty then matchLoop pattern total (index + 1) rest remaining first
    else if first && !startsWithStar pattern then
      if startsWithL remaining part then
        matchLoop pattern total (index + 1) rest (remaining.drop part.length) false
      else false
    else if index == total - 1 && !endsWithStar pattern then
      if endsWithL remaining part then
        matchLoop pattern total (index + 1) rest remaining false
      else false
    else
      match findSub part remaining with
      | some position =>
        matchLoop pattern total (index + 1) rest
          (remaining.drop (position + part.length)) false
      | none => false

/-- Embedding of `matches_wildcard_pattern` (`scanner/core.rs` lines
198-234): split the pattern on the star; a pattern with no star matches by
substring containment; otherwise run the piece-consumption loop. -/
def matches_wildcard_pattern (path pattern : Str) : Bool :=
  let pattern_parts := splitOnChar STAR pattern
  if pattern_parts.length = 1 then containsL path pattern
  else matchLoop pattern pattern_parts.length 0 pattern_parts path true

/-- Embedding of `should_exclude_path` (`scanner/core.rs`): true when any
exclude pattern matches the path. -/
def should_exclude_path (path : Str) (exclude_patterns : List Str) : Bool :=
  exclude_patterns.any (fun pattern => matches_wildcard_pattern path pattern)

/-- Embedding of Rust `Iterator::rposition` on component lists: index of the
last element equal to `x`. -/
def rposition (x : Str) : List Str → Option Nat
  | [] => none
  | a :: rest =>
    match rposition x rest with
    | some i => some (i + 1)
    | none => if a == x then some 0 else none

/-- Embedding of `is_inside_dependency_directory` (`scanner/core.rs` lines
248-268): split the path on the separator, find the last component equal to
the directory's own name, and report whether any strictly earlier component
equals one of the known dependency directory names (the Rust loop tests
`index < position && contains`, which is the same as testing the run of
components before `position`). -/
def is_inside_dependency_directory (path_string : Str) (current_dir_name : Str)
    (all_dependency_dirs : List Str) : Bool :=
  let components := splitOnChar MAIN_SEPARATOR path_string
  match rposition current_dir_name components with
  | some position =>
    (components.take position).any (fun component => all_dependency_dirs.contains component)
  | none => false

/-- Embedding of `DependencyCategory` (`scanner/types.rs`). -/
inductive DependencyCategory where
  | NodeModules
  | Composer
  | Bundler
  | Pods
  | PythonVenv
  | ElixirDeps
  | DartTool
  | GoMod
deriving DecidableEq, BEq, Repr

/-- Embedding of `DependencyCategory::directory_names`. -/
def DependencyCategory.directory_names : DependencyCategory → List Str
  | .NodeModules => ["node_modules".toList]
  | .Composer => ["vendor".toList]
  | .Bundler => ["vendor".toList]
  | .Pods => ["Pods".toList]
  | .PythonVenv => [".venv".toList, "venv".toList]
  | .ElixirDeps => ["deps".toList]
  | .DartTool => [".dart_tool".toList]
  | .GoMod => ["pkg".toList]

/-- Embedding of `DependencyCategory::all`. -/
def DependencyCategory.all : List DependencyCategory :=
  [.NodeModules, .Composer, .Bundler, .Pods, .PythonVenv, .ElixirDeps, .DartTool, .GoMod]

/-- Embedding of `DependencyCategory::from_directory_name` (`scanner/types.rs`
lines 60-71); the ambiguous names vendor, deps and pkg map to none here and
are resolved by the specialised detection functions. -/
def DependencyCategory.from_directory_name (dir_name : Str) : Option DependencyCategory :=
  if dir_name == "node_modules".toList then some .NodeModules
  else if dir_name == "Pods".toList then some .Pods
  else if dir_name == ".venv".toList || dir_name == "venv".toList then some .PythonVenv
  else if dir_name == ".dart_tool".toList then some .DartTool
  else none

/-- Embedding of `get_target_directory_names` (`scanner/types.rs`): the
union, as a list (only membership is used), of the directory names of the
enabled categories. -/
def get_target_directory_names (enabled_categories : List DependencyCategory) : List Str :=
  (enabled_categories.map DependencyCategory.directory_names).flatten

/-- Embedding of `get_all_dependency_directory_names` (`scanner/types.rs`). -/
def get_all_dependency_directory_names : List Str :=
  (DependencyCategory.all.map DependencyCategory.directory_names).flatten

/-- The kind of a directory entry, as distinguishable by `symlink_metadata`
free inspection; the category markers only distinguish files from
directories. -/
inductive NodeKind where
  | file
  | dir
deriving DecidableEq, BEq, Repr

/-- The filesystem facts consulted by `from_vendor_directory`,
`from_deps_directory` and `from_pkg_directory` for one candidate directory:
its child entries (name and kind) and two facts about its parent. -/
structure DirContext where
  children : List (Str × NodeKind)
  parentHasGemfile : Bool
  parentHasMixExs : Bool

/-- Rust `path.join(name).exists()`: true when a child entry of ANY kind
with that name is present; `Path::exists` does not inspect the kind. -/
def DirContext.childExists (ctx : DirContext) (name : Str) : Bool :=
  ctx.children.any (fun entry => entry.1 == name)

/-- A child entry that is specifically a directory; used only by the
spec-worded reading of vendor resolution, never by the code embedding. -/
def DirContext.childDirExists (ctx : DirContext) (name : Str) : Bool :=
  ctx.children.any (fun entry => entry.1 == name && entry.2 == NodeKind.dir)

/-- Embedding of `DependencyCategory::from_vendor_directory`
(`scanner/types.rs` lines 75-96); the autoload.php, composer and bundle
probes use `Path::exists`. -/
def DependencyCategory.from_vendor_directory (ctx : DirContext) : Option DependencyCategory :=
  if ctx.childExists "autoload.php".toList || ctx.childExists "composer".toList then
    some .Composer
  else if ctx.childExists "bundle".toList then some .Bundler
  else if ctx.parentHasGemfile then some .Bundler
  else some .Composer

/-- Vendor resolution as worded by the specification, which asks for a child
DIRECTORY named composer and a child directory bundle; written only to be
compared with the code's `from_vendor_directory`. -/
def specVendorCategory (ctx : DirContext) : Option DependencyCategory :=
  if ctx.childExists "autoload.php".toList || ctx.childDirExists "composer".toList then
    some .Composer
  else if ctx.childDirExists "bundle".toList then some .Bundler
  else if ctx.parentHasGemfile then some .Bundler
  else some .Composer

/-- Embedding of `DependencyCategory::from_deps_directory`. -/
def DependencyCategory.from_deps_directory (ctx : DirContext) : Option DependencyCategory :=
  if ctx.parentHasMixExs then some .ElixirDeps else none

/-- Embedding of `DependencyCategory::from_pkg_directory`. -/
def DependencyCategory.from_pkg_directory (ctx : DirContext) : Option DependencyCategory :=
  if ctx.childExists "mod".toList then some .GoMod else none

/-- A subtree of the filesystem as seen WITHOUT resolving symbolic links:
the view `check_directory_has_symlinks` (`scanner/core.rs` lines 146-165)
walks with `read_dir` and `symlink_metadata`. -/
inductive FsTree where
  | file (size : Nat) (mtimeMs : Nat)
  | symlink
  | dir (children : List FsTree)

/-- The entry loop of `check_directory_has_symlinks`: a symlink child is
reported immediately, a directory child is recursed into, a file child
contributes nothing. -/
def anyEntryHasSymlink : List FsTree → Bool
  | [] => false
  | FsTree.symlink :: _ => true
  | FsTree.dir cs :: rest => anyEntryHasSymlink cs || anyEntryHasSymlink rest
  | FsTree.file _ _ :: rest => anyEntryHasSymlink rest

/-- Embedding of `check_directory_has_symlinks`: `read_dir` succeeds only on
a directory; other roots report false. -/
def check_directory_has_symlinks : FsTree → Bool
  | FsTree.dir cs => anyEntryHasSymlink cs
  | _ => false

/-- The sibling list contains at least one symbolic link at some depth
reachable through real directories. -/
inductive SubSymlink : List FsTree → Prop where
  | head (rest : List FsTree) : SubSymlink (FsTree.symlink :: rest)
  | inDir (cs rest : List FsTree) : SubSymlink cs → SubSymlink (FsTree.dir cs :: rest)
  | tail (c : FsTree) (rest : List FsTree) : SubSymlink rest → SubSymlink (c :: rest)

/-- One metadata record observed by the sizing walk of
`calculate_dir_size_full` (`scanner/core.rs` lines 85-143). That walk
follows symbolic links, so its entry stream is modelled as the explicit list
of successfully read metadata records it yields (the code skips entries and
metadata reads that fail, so those are simply absent from the list). -/
structure WalkedMeta where
  is_file : Bool
  len : Nat
  modifiedMs : Option Nat

/-- The modulus of Rust `u64` arithmetic. -/
def U64MOD : Nat := 2 ^ 64

/-- Accumulator of the sizing walk. -/
structure SizeAcc where
  total_size : Nat
  file_count : Nat
  has_real_content : Bool
  latest_modified_ms : Nat

/-- One iteration of the sizing walk: only regular files contribute size,
count and modification time. -/
def sizeStep (acc : SizeAcc) (m : WalkedMeta) : SizeAcc :=
  if m.is_file then
    { total_size := (acc.total_size + m.len) % U64MOD,
      file_count := (acc.file_count + 1) % U64MOD,
      has_real_content := true,
      latest_modified_ms :=
        match m.modifiedMs with
        | some ms => if acc.latest_modified_ms < ms then ms else acc.latest_modified_ms
        | none => acc.latest_modified_ms }
  else acc

/-- Embedding of `DirectorySizeResult` (`scanner/core.rs`). -/
structure DirectorySizeResult where
  total_size : Nat
  file_count : Nat
  has_only_symlinks : Bool
  last_modified_ms : Nat
deriving DecidableEq, Repr

/-- Embedding of `calculate_dir_size_full`: fold the walked metadata, run
the symlink post-pass only when no regular file was encountered, and fall
back to the root's own mtime when no file mtime was recorded. -/
def calculate_dir_size_full (walked : List WalkedMeta) (tree : FsTree)
    (rootMtimeMs : Nat) : DirectorySizeResult :=
  let acc := walked.foldl sizeStep ⟨0, 0, false, 0⟩
  let has_symlinks :=
    if !acc.has_real_content then check_directory_has_symlinks tree else false
  let latest :=
    if acc.latest_modified_ms = 0 then rootMtimeMs else acc.latest_modified_ms
  { total_size := acc.total_size,
    file_count := acc.file_count,
    has_only_symlinks := has_symlinks && !acc.has_real_content,
    last_modified_ms := latest }

/-- Scanner constant `MAX_TIMEOUT_RETRIES` (`config.rs`). -/
def MAX_TIMEOUT_RETRIES : Nat := 3

/-- The per-result receive window of the sizing phase, in seconds: the code
calls `results_receiver.recv_timeout(Duration::from_secs(30))`. -/
def RECV_TIMEOUT_SECS : Nat := 30

/-- Embedding of `SizeCalculationResult` (`scanner/size_pool.rs`). -/
structure SizeCalculationResult where
  path : Str
  category : DependencyCategory
  total_size : Nat
  file_count : Nat
  last_modified_ms : Nat
  has_only_symlinks : Bool
deriving DecidableEq, Repr

/-- Embedding of `DirectoryEntry` (`scanner/types.rs`). -/
structure DirectoryEntry where
  path : Str
  size_bytes : Nat
  file_count : Nat
  last_modified_ms : Nat
  category : DependencyCategory
  has_only_symlinks : Bool
deriving DecidableEq, Repr

/-- Packaging one pool result into a `DirectoryEntry`, as done in the Ok arm
of the result-collection loop (`commands/scan.rs` lines 266-273). -/
def mkDirectoryEntry (r : SizeCalculationResult) : DirectoryEntry :=
  ⟨r.path, r.total_size, r.file_count, r.last_modified_ms, r.category, r.has_only_symlinks⟩

/-- One observation of the 30-second `recv_timeout` call: either a sized
result arrived inside the window, or the call timed out. -/
inductive RecvEvent where
  | ok (result : SizeCalculationResult)
  | timeout
deriving DecidableEq, Repr

/-- Final state of the result-collection loop of `execute_directory_walk`:
the entries in arrival order, the running u64 total, how many results were
collected, and whether collection was abandoned by the timeout guard. -/
structure SizingOutcome where
  entries : List DirectoryEntry
  running_total_size : Nat
  results_collected : Nat
  abandoned : Bool
deriving DecidableEq, Repr

/-- Embedding of the result-collection loop of `execute_directory_walk`
(`commands/scan.rs` lines 254-308) on a trace of receive observations, for a
run whose cancellation token is never set: an Ok receive resets the
consecutive-timeout counter to 0, emits and appends the entry and adds its
size to the running total (u64 addition); a timeout increments the counter,
and the loop breaks out once the counter reaches `MAX_TIMEOUT_RETRIES`. -/
def sizingLoop (discovered_count : Nat) :
    List RecvEvent → Nat → Nat → List DirectoryEntry → Nat → SizingOutcome
  | events, results_collected, timeouts, entries, running_total_size =>
    if results_collected < discovered_count then
      match events with
      | [] => ⟨entries, running_total_size, results_collected, false⟩
      | RecvEvent.ok r :: rest =>
        sizingLoop discovered_count rest (results_collected + 1) 0
          (entries ++ [mkDirectoryEntry r])
          ((running_total_size + r.total_size) % U64MOD)
      | RecvEvent.timeout :: rest =>
        if MAX_TIMEOUT_RETRIES ≤ timeouts + 1 then
          ⟨entries, running_total_size, results_collected, true⟩
        else
          sizingLoop discovered_count rest results_collected (timeouts + 1)
            entries running_total_size
    else ⟨entries, running_total_size, results_collected, false⟩

/-- The sizing phase started from the loop's initial state. -/
def execute_sizing_phase (discovered_count : Nat) (events : List RecvEvent) : SizingOutcome :=
  sizingLoop discovered_count events 0 0 [] 0

/-- Embedding of `ScanResult` (`scanner/types.rs`). -/
structure ScanResult where
  entries : List DirectoryEntry
  total_size : Nat
  scan_time_ms : Nat
  skipped_count : Nat
deriving DecidableEq, Repr

/-- Stable insertion of an entry before the first strictly smaller one. -/
def insertBySizeDesc (e : DirectoryEntry) : List DirectoryEntry → List DirectoryEntry
  | [] => [e]
  | a :: rest =>
    if a.size_bytes < e.size_bytes then e :: a :: rest
    else a :: insertBySizeDesc e rest

/-- The final sort of `execute_directory_walk`,
`all_entries.sort_by(|first, second| second.size_bytes.cmp(&first.size_bytes))`:
Rust's `sort_by` is a stable sort, and a stable sort under a fixed comparator
is a function of its input, so it is embedded as stable insertion sort by
descending `size_bytes`. -/
def sortBySizeDesc : List DirectoryEntry → List DirectoryEntry
  | [] => []
  | e :: rest => insertBySizeDesc e (sortBySizeDesc rest)

/-- Building the `ScanResult` returned by `execute_directory_walk` from the
collection loop's final state (`commands/scan.rs` lines 325-337). -/
def finalizeScan (o : SizingOutcome) (scan_time_ms skipped_count : Nat) : ScanResult :=
  ⟨sortBySizeDesc o.entries, o.running_total_size, scan_time_ms, skipped_count⟩

/-- Embedding of `ScanStats` (`scanner/types.rs`). -/
structure ScanStats where
  total_size : Nat
  directory_count : Nat
  current_path : Option Str
deriving DecidableEq, Repr

/-- Embedding of `maybe_emit_scan_stats` (`commands/scan.rs` lines 67-85).
The wall-clock comparison against the 50 ms throttle is passed in as the
boolean `throttle_elapsed`; the function returns the event it emits, if
any. -/
def maybe_emit_scan_stats (throttle_elapsed : Bool) (running_total_size : Nat)
    (entry_count : Nat) (current_path : Str) : Option ScanStats :=
  if throttle_elapsed then
    some ⟨running_total_size, entry_count, some current_path⟩
  else none

/-- Embedding of `determine_category` (`commands/scan.rs` lines 32-65). -/
def determine_category (directory_name : Str) (ctx : DirContext)
    (enabled_categories : List DependencyCategory) : Option DependencyCategory :=
  match DependencyCategory.from_directory_name directory_name with
  | some matched_category => some matched_category
  | none =>
    if directory_name == "vendor".toList then
      match DependencyCategory.from_vendor_directory ctx with
      | some vendor_category =>
        if enabled_categories.contains vendor_category then some vendor_category else none
      | none => none
    else if directory_name == "deps".toList then
      match DependencyCategory.from_deps_directory ctx with
      | some deps_category =>
        if enabled_categories.contains deps_category then some deps_category else none
      | none => none
    else if directory_name == "pkg".toList then
      match DependencyCategory.from_pkg_directory ctx with
      | some pkg_category =>
        if enabled_categories.contains pkg_category then some pkg_category else none
      | none => none
    else none

/-- Embedding of `DiscoveredDirectory` (`scanner/types.rs`). -/
structure DiscoveredDirectory where
  path : Str
  category : DependencyCategory
deriving DecidableEq, Repr

/-- One walker entry as consumed by `discover_dependency_directory`: whether
it is a directory, its path, its basename (`file_name().to_str()` can fail),
the marker-file context, and the throttle clock reading. -/
structure WalkEntryInfo where
  is_dir : Bool
  path : Str
  file_name : Option Str
  ctx : DirContext
  throttle_elapsed : Bool

/-- The scan configuration assembled by `start_scan` (`commands/scan.rs`
lines 87-93), with the two name sets as lists (only membership is used). -/
structure ScanConfigM where
  enabled_categories : List DependencyCategory
  target_dir_names : List Str
  all_dependency_dirs : List Str
  exclude_patterns : List Str

/-- What one call of `discover_dependency_directory` produces: the
discovered directory, if any, and the progress event it emitted, if any. -/
structure DiscoverOutput where
  discovered : Option DiscoveredDirectory
  emitted_stats : Option ScanStats

/-- Embedding of `discover_dependency_directory` (`commands/scan.rs` lines
113-157): non-directories are dropped before anything is emitted; the
progress emission passes the literal 0 as the running total together with
the number of directories discovered so far; the name, category, nesting and
exclusion filters then run in order. -/
def discover_dependency_directory (entry : WalkEntryInfo) (config : ScanConfigM)
    (discovered_so_far : Nat) : DiscoverOutput :=
  if !entry.is_dir then ⟨none, none⟩
  else
    let stats := maybe_emit_scan_stats entry.throttle_elapsed 0 discovered_so_far entry.path
    let directory_name := (entry.file_name).getD []
    if !config.target_dir_names.contains directory_name then ⟨none, stats⟩
    else
      match determine_category directory_name entry.ctx config.enabled_categories with
      | none => ⟨none, stats⟩
      | some category =>
        if is_inside_dependency_directory entry.path directory_name
            config.all_dependency_dirs then
          ⟨none, stats⟩
        else if should_exclude_path entry.path config.exclude_patterns then ⟨none, stats⟩
        else ⟨some ⟨entry.path, category⟩, stats⟩

/-- Embedding of `DeleteValidationError` (`commands/delete.rs`). -/
inductive DeleteValidationError where
  | DoesNotExist
  | NotADirectory
  | NotDependencyDirectory
  | InvalidPath (detail : Str)
deriving DecidableEq, Repr

/-- The display strings of `DeleteValidationError` (the thiserror derive). -/
def DeleteValidationError.message : DeleteValidationError → Str
  | .DoesNotExist => "Directory does not exist".toList
  | .NotADirectory => "Path is not a directory".toList
  | .NotDependencyDirectory => "Can only delete dependency directories".toList
  | .InvalidPath detail => "Invalid path: ".toList ++ detail

/-- The filesystem queries issued by delete validation, as one abstract
state: `canonicalize` resolves symlinks and dot components (failing with the
OS error text); the remaining queries are asked of the canonical path. -/
structure DeleteFs where
  canonicalize : Str → Except Str Str
  pathExists : Str → Bool
  isDir : Str → Bool
  fileName : Str → Option Str

/-- Embedding of `canonicalize_path` (`commands/delete.rs` lines 36-40). -/
def canonicalize_path (fs : DeleteFs) (path : Str) : Except DeleteValidationError Str :=
  match fs.canonicalize path with
  | Except.ok canonical => Except.ok canonical
  | Except.error e =>
    Except.error (DeleteValidationError.InvalidPath ("Failed to resolve path: ".toList ++ e))

/-- The basename test of `validate_delete_path`:
`from_directory_name(name).is_some() || name == vendor, deps or pkg`. -/
def is_dependency_dir_name (name : Str) : Bool :=
  (DependencyCategory.from_directory_name name).isSome
    || name == "vendor".toList || name == "deps".toList || name == "pkg".toList

/-- The eight directory basenames the specification says delete validation
accepts. -/
def knownDepNames : List Str :=
  ["node_modules".toList, "Pods".toList, ".venv".toList, "venv".toList,
    ".dart_tool".toList, "vendor".toList, "deps".toList, "pkg".toList]

/-- Embedding of `validate_delete_path` (`commands/delete.rs` lines 42-69). -/
def validate_delete_path (fs : DeleteFs) (path : Str) :
    Except DeleteValidationError Str :=
  match canonicalize_path fs path with
  | Except.error e => Except.error e
  | Except.ok canonical_path =>
    if !fs.pathExists canonical_path then Except.error DeleteValidationError.DoesNotExist
    else if !fs.isDir canonical_path then Except.error DeleteValidationError.NotADirectory
    else
      let is_dependency_dir :=
        match fs.fileName canonical_path with
        | some name => is_dependency_dir_name name
        | none => false
      if !is_dependency_dir then Except.error DeleteValidationError.NotDependencyDirectory
      else Except.ok canonical_path

/-- Embedding of `DeleteResult` (`commands/delete.rs`). -/
structure DeleteResult where
  success : Bool
  path : Str
  size_freed : Nat
deriving DecidableEq, Repr

/-- A destructive filesystem call attempted by the delete executor. -/
inductive FsAction where
  | trashDelete (path : Str)
  | removeDirAll (path : Str)
deriving DecidableEq, Repr

/-- Outcomes of the trash-move and recursive-removal calls for each path:
`none` is success, `some msg` carries the OS error text. -/
structure DeleteEnv where
  permanent_delete : Bool
  trashResult : Str → Option Str
  removeResult : Str → Option Str

/-- Embedding of `delete_to_trash` (`commands/delete.rs` lines 79-135),
returning the command's result together with the list of destructive calls
it attempted, in order; a validation failure attempts none. The iCloud
special case is the substring test of the trash error text against
"needs to be downloaded". -/
def delete_to_trash (fs : DeleteFs) (env : DeleteEnv) (path : Str) :
    Except Str DeleteResult × List FsAction :=
  match validate_delete_path fs path with
  | Except.error e => (Except.error e.message, [])
  | Except.ok canonical_path =>
    if env.permanent_delete then
      match env.removeResult canonical_path with
      | some e =>
        (Except.error ("Failed to permanently delete: ".toList ++ e),
          [FsAction.removeDirAll canonical_path])
      | none =>
        (Except.ok ⟨true, canonical_path, 0⟩, [FsAction.removeDirAll canonical_path])
    else
      match env.trashResult canonical_path with
      | some e =>
        if containsL e "needs to be downloaded".toList then
          match env.removeResult canonical_path with
          | some e2 =>
            (Except.error
              (("Cannot delete: This directory is stored in iCloud. " ++
                "Attempted force delete but failed: ").toList ++ e2),
              [FsAction.trashDelete canonical_path, FsAction.removeDirAll canonical_path])
          | none =>
            (Except.ok ⟨true, canonical_path, 0⟩,
              [FsAction.trashDelete canonical_path, FsAction.removeDirAll canonical_path])
        else
          (Except.error ("Failed to move to trash: ".toList ++ e),
            [FsAction.trashDelete canonical_path])
      | none =>
        (Except.ok ⟨true, canonical_path, 0⟩, [FsAction.trashDelete canonical_path])

/-- Delete constant `MAX_CONCURRENT_DELETES` (`config.rs`). -/
def MAX_CONCURRENT_DELETES : Nat := 4

/-- What joining one spawned delete task yields: the task ran
`delete_to_trash` to completion (Ok or Err), or it panicked and the join
itself fails. -/
inductive TaskOutcome where
  | completed (result : Except Str DeleteResult)
  | panicked

/-- Embedding of `delete_all_to_trash` (`commands/delete.rs` lines 139-190)
under an arbitrary assignment of per-path task outcomes: one task is spawned
per path and the handles are joined in submission order; an Err becomes a
`success = false` entry keeping the path, and a panicked task becomes the
sentinel failure entry. The 4-permit semaphore bounds in-flight work but
affects neither which task handles which path nor the join order. -/
def delete_all_to_trash (outcome : Str → TaskOutcome) (paths : List Str) :
    List DeleteResult :=
  paths.map (fun path =>
    match outcome path with
    | TaskOutcome.completed (Except.ok result) => result
    | TaskOutcome.completed (Except.error _) => ⟨false, path, 0⟩
    | TaskOutcome.panicked => ⟨false, "unknown (task panicked)".toList, 0⟩)

/-- A concrete sized result used to instantiate the trace theorems. -/
def sampleResult : SizeCalculationResult :=
  ⟨"a".toList, DependencyCategory.NodeModules, 5, 1, 0, false⟩

/-- The canonical form of the traversal scenario's input. -/
def sensitivePath : Str := "root/sensitive".toList

/-- The traversal input of the delete scenario:
root/proj/node_modules/../../sensitive. -/
def traversalInput : Str := "root/proj/node_modules/../../sensitive".toList

/-- A concrete filesystem for the traversal scenario: canonicalising the
traversal input resolves the dot-dot components to root/sensitive, which
exists, is a directory, and has basename sensitive. -/
def fsTraversal : DeleteFs :=
  { canonicalize := fun p =>
      if p == traversalInput then Except.ok sensitivePath
      else Except.error "No such file or directory".toList,
    pathExists := fun p => p == sensitivePath,
    isDir := fun p => p == sensitivePath,
    fileName := fun p => if p == sensitivePath then some "sensitive".toList else none }

/-- A delete environment in which every destructive call would succeed. -/
def envDefault : DeleteEnv := ⟨false, fun _ => none, fun _ => none⟩

/-- The batch scenario's inputs: three deletable paths and one missing. -/
def batchPaths : List Str :=
  ["a/node_modules".toList, "b/node_modules".toList, "c/node_modules".toList,
    "missing".toList]

/-- Task outcomes of the batch scenario: the missing path fails validation,
the rest complete successfully. -/
def batchOutcome (p : Str) : TaskOutcome :=
  if p == "missing".toList then
    TaskOutcome.completed (Except.error "Directory does not exist".toList)
  else TaskOutcome.completed (Except.ok ⟨true, p, 0⟩)

/-- A concrete walker entry: a node_modules directory, throttle elapsed. -/
def sampleWalkEntry : WalkEntryInfo :=
  ⟨true, "home/app/node_modules".toList, some "node_modules".toList,
    ⟨[], false, false⟩, true⟩

/-- A concrete scan configuration with NodeModules enabled. -/
def sampleScanConfig : ScanConfigM :=
  ⟨[DependencyCategory.NodeModules], ["node_modules".toList],
    get_all_dependency_directory_names, []⟩

end Deptox

namespace Deptox

theorem splitOnChar_ne_nil (c : Char) (l : Str) : splitOnChar c l ≠ [] := by
  induction l with
  | nil => simp [splitOnChar]
  | cons a rest ih =>
    simp only [splitOnChar]
    cases h : splitOnChar c rest with
    | nil => simp
    | cons s ss => by_cases hac : a = c <;> simp [hac]

theorem splitOnChar_not_mem (c : Char) (l : Str) :
    ∀ q ∈ splitOnChar c l, c ∉ q := by
  induction l with
  | nil =>
    intro q hq
    simp [splitOnChar] at hq
    simp [hq]
  | cons a rest ih =>
    intro q hq
    simp only [splitOnChar] at hq
    cases h : splitOnChar c rest with
    | nil => exact absurd h (splitOnChar_ne_nil c rest)
    | cons s ss =>
      rw [h] at hq
      by_cases hac : a = c
      · simp [hac] at hq
        rcases hq with hq | hq | hq
        · simp [hq]
        · exact hq ▸ ih s (h ▸ List.mem_cons_self s ss)
        · exact ih q (h ▸ List.mem_cons_of_mem s hq)
      · simp [hac] at hq
        rcases hq with hq | hq
        · subst hq
          intro hmem
          rcases List.mem_cons.mp hmem with h1 | h1
          · exact hac h1.symm
          · exact ih s (h ▸ List.mem_cons_self s ss) h1
        · exact ih q (h ▸ List.mem_cons_of_mem s hq)

theorem interC_splitOnChar (c : Char) (l : Str) :
    interC c (splitOnChar c l) = l := by
  induction l with
  | nil => simp [splitOnChar, interC]
  | cons a rest ih =>
    simp only [splitOnChar]
    cases h : splitOnChar c rest with
    | nil => exact absurd h (splitOnChar_ne_nil c rest)
    | cons s ss =>
      rw [h] at ih
      by_cases hac : a = c
      · subst hac
        simp only [if_pos rfl, interC]
        simpa using ih
      · simp only [if_neg hac]
        cases ss with
        | nil => simp only [interC] at ih ⊢; rw [ih]
        | cons s2 ss2 =>
          simp only [interC] at ih ⊢
          rw [List.cons_append, ih]

theorem startsWithL_iff (l p : Str) : startsWithL l p = true ↔ PrefixP p l := by
  induction l generalizing p with
  | nil =>
    cases p with
    | nil => simp [startsWithL, PrefixP]
    | cons b p2 => simp [startsWithL, PrefixP]
  | cons a l2 ih =>
    cases p with
    | nil => simp [startsWithL, PrefixP]
    | cons b p2 =>
      simp only [startsWithL, Bool.and_eq_true, beq_iff_eq, ih, PrefixP]
      constructor
      · rintro ⟨rfl, t, rfl⟩
        exact ⟨t, rfl⟩
      · rintro ⟨t, ht⟩
        rw [List.cons_append] at ht
        injection ht with h1 h2
        exact ⟨h1, t, h2⟩

theorem startsWithL_refl (l : Str) : startsWithL l l = true :=
  (startsWithL_iff l l).mpr ⟨[], by simp⟩

theorem endsWithL_iff (l p : Str) : endsWithL l p = true ↔ SuffixP p l := by
  rw [endsWithL, startsWithL_iff]
  constructor
  · rintro ⟨t, ht⟩
    refine ⟨t.reverse, ?_⟩
    have := congrArg List.reverse ht
    simpa using this
  · rintro ⟨w, rfl⟩
    exact ⟨w.reverse, by simp⟩

theorem findSub_some_spec (needle : Str) :
    ∀ (hay : Str) (pos : Nat), findSub needle hay = some pos →
      ∃ u v, hay = u ++ needle ++ v ∧ u.length = pos := by
  intro hay
  induction hay with
  | nil =>
    intro pos h
    simp only [findSub] at h
    by_cases hs : startsWithL [] needle = true
    · rw [if_pos hs] at h
      obtain ⟨t, ht⟩ := (startsWithL_iff [] needle).mp hs
      rcases List.append_eq_nil.mp ht.symm with ⟨h1, h2⟩
      injection h with hpos
      exact ⟨[], [], by simp [h1], by simp [hpos]⟩
    · rw [if_neg hs] at h
      exact absurd h (by simp)
  | cons a t ih =>
    intro pos h
    simp only [findSub] at h
    by_cases hs : startsWithL (a :: t) needle = true
    · rw [if_pos hs] at h
      obtain ⟨w, hw⟩ := (startsWithL_iff (a :: t) needle).mp hs
      injection h with hpos
      exact ⟨[], w, by simpa using hw, by simp [hpos]⟩
    · rw [if_neg hs] at h
      cases hfind : findSub needle t with
      | none => rw [hfind] at h; simp at h
      | some i =>
        rw [hfind] at h
        have hpos : i + 1 = pos := by simpa using h
        obtain ⟨u, v, huv, hlen⟩ := ih i hfind
        exact ⟨a :: u, v, by simp [huv], by simp [hlen, hpos]⟩

theorem findSub_minimal (needle : Str) :
    ∀ (hay : Str) (pos : Nat), findSub needle hay = some pos →
      ∀ u v, hay = u ++ needle ++ v → pos ≤ u.length := by
  intro hay
  induction hay with
  | nil =>
    intro pos h u v huv
    simp only [findSub] at h
    by_cases hs : startsWithL [] needle = true
    · rw [if_pos hs] at h
      injection h with hpos
      omega
    · rw [if_neg hs] at h
      exact absurd h (by simp)
  | cons a t ih =>
    intro pos h u v huv
    simp only [findSub] at h
    by_cases hs : startsWithL (a :: t) needle = true
    · rw [if_pos hs] at h
      injection h with hpos
      omega
    · rw [if_neg hs] at h
      cases u with
      | nil =>
        exfalso
        apply hs
        exact (startsWithL_iff (a :: t) needle).mpr ⟨v, by simpa using huv⟩
      | cons a2 u2 =>
        cases hfind : findSub needle t with
        | none => rw [hfind] at h; simp at h
        | some i =>
          rw [hfind] at h
          have hpos : i + 1 = pos := by simpa using h
          have ht : t = u2 ++ needle ++ v := by
            rw [List.cons_append, List.cons_append] at huv
            injection huv
          have := ih i hfind u2 v ht
          simp only [List.length_cons]
          omega

theorem findSub_isSome_of_infixP (needle : Str) :
    ∀ (hay : Str), InfixP needle hay → (findSub needle hay).isSome = true := by
  intro hay
  induction hay with
  | nil =>
    rintro ⟨u, v, huv⟩
    rcases List.append_eq_nil.mp huv.symm with ⟨h1, h2⟩
    rcases List.append_eq_nil.mp h1 with ⟨h3, h4⟩
    simp [findSub, h4, startsWithL]
  | cons a t ih =>
    rintro ⟨u, v, huv⟩
    simp only [findSub]
    by_cases hs : startsWithL (a :: t) needle = true
    · rw [if_pos hs]; simp
    · rw [if_neg hs]
      cases u with
      | nil =>
        exfalso
        apply hs
        exact (startsWithL_iff (a :: t) needle).mpr ⟨v, by simpa using huv⟩
      | cons a2 u2 =>
        have ht : InfixP needle t := by
          refine ⟨u2, v, ?_⟩
          rw [List.cons_append, List.cons_append] at huv
          injection huv
        have := ih ht
        cases hfind : findSub needle t with
        | none => rw [hfind] at this; simp at this
        | some i => simp

theorem suffixP_refl (l : Str) : SuffixP l l := ⟨[], by simp⟩

theorem suffixP_drop (l : Str) (n : Nat) : SuffixP (l.drop n) l :=
  ⟨l.take n, (List.take_append_drop n l).symm⟩

theorem suffixP_trans {a b c : Str} (h1 : SuffixP a b) (h2 : SuffixP b c) :
    SuffixP a c := by
  obtain ⟨w1, rfl⟩ := h1
  obtain ⟨w2, rfl⟩ := h2
  exact ⟨w2 ++ w1, by simp⟩

theorem suffixP_of_le (a b l : Str) (ha : SuffixP a l) (hb : SuffixP b l)
    (hlen : a.length ≤ b.length) : SuffixP a b := by
  obtain ⟨w, rfl⟩ := ha
  obtain ⟨w2, hb2⟩ := hb
  have hlw : w2.length ≤ w.length := by
    have := congrArg List.length hb2
    simp only [List.length_append] at this
    omega
  have hbdrop : (w ++ a).drop w2.length = b := by rw [hb2]; exact List.drop_left w2 b
  have hadrop : (w ++ a).drop w.length = a := List.drop_left w a
  have hkey : b.drop (w.length - w2.length) = a := by
    rw [← hbdrop, List.drop_drop]
    have harith : w2.length + (w.length - w2.length) = w.length := by omega
    rw [harith]
    exact hadrop
  exact ⟨b.take (w.length - w2.length), by rw [← hkey, List.take_append_drop]⟩

theorem interC_cons (c : Char) (q : Str) (qs : List Str) (h : qs ≠ []) :
    interC c (q :: qs) = q ++ c :: interC c qs := by
  cases qs with
  | nil => exact absurd rfl h
  | cons q2 qs2 => rfl

theorem interC_ne_nil (c : Char) (q : Str) (qs : List Str) (h : qs ≠ []) :
    interC c (q :: qs) ≠ [] := by
  rw [interC_cons c q qs h]
  simp

theorem getLast?_append_right {l l2 : Str} (h : l2 ≠ []) :
    (l ++ l2).getLast? = l2.getLast? := by
  rw [List.getLast?_append]
  cases hg : l2.getLast? with
  | none =>
    exfalso
    have := List.getLast?_isSome.mpr h
    rw [hg] at this
    simp at this
  | some x => rfl

theorem interC_replicate (k : Nat) (rest : List Str) (h : rest ≠ []) :
    interC STAR (List.replicate k [] ++ rest) =
      List.replicate k STAR ++ interC STAR rest := by
  induction k with
  | zero => simp
  | succ n ih =>
    rw [List.replicate_succ, List.cons_append]
    have hne : List.replicate n ([] : Str) ++ rest ≠ [] := by
      intro hc
      exact h (List.append_eq_nil.mp hc).2
    rw [interC_cons STAR [] _ hne, ih]
    simp [List.replicate_succ]

theorem startsWithStar_interC (q : Str) (qs : List Str) (hqs : qs ≠ [])
    (hfree : STAR ∉ q) :
    startsWithStar (interC STAR (q :: qs)) = true ↔ (q :: qs).head? = some [] := by
  rw [interC_cons STAR q qs hqs]
  cases q with
  | nil => simp [startsWithStar]
  | cons a q2 =>
    have ha : a ≠ STAR := by
      intro hc
      exact hfree (hc ▸ List.mem_cons_self a q2)
    simp [startsWithStar, ha]

theorem endsWithStar_interC : ∀ (qs : List Str) (q : Str), qs ≠ [] →
    (∀ x ∈ q :: qs, STAR ∉ x) →
    (endsWithStar (interC STAR (q :: qs)) = true ↔ (q :: qs).getLast? = some []) := by
  intro qs
  induction qs with
  | nil => intro q h _; exact absurd rfl h
  | cons q2 qs2 ih =>
    intro q _ hfree
    rw [interC_cons STAR q (q2 :: qs2) (by simp)]
    cases qs2 with
    | nil =>
      cases q2 with
      | nil => simp [endsWithStar, interC, List.getLast?_concat, STAR]
      | cons a t =>
        have hx : ∃ x, (a :: t : Str).getLast? = some x ∧ x ∈ (a :: t : Str) := by
          cases hg : (a :: t : Str).getLast? with
          | none => simp at hg
          | some x => exact ⟨x, rfl, List.mem_of_mem_getLast? hg⟩
        obtain ⟨x, hgx, hmemx⟩ := hx
        have hxne : x ≠ STAR := by
          intro hc
          exact hfree (a :: t) (by simp) (hc ▸ hmemx)
        have hglast : (q ++ STAR :: interC STAR [a :: t]).getLast? = some x := by
          have h1 : (q ++ STAR :: interC STAR [a :: t]) = (q ++ [STAR]) ++ (a :: t) := by
            simp [interC, List.append_assoc]
          rw [h1, getLast?_append_right (by simp), hgx]
        simp [endsWithStar, hglast, hxne]
    | cons q3 qs3 =>
      have hne3 : (q3 :: qs3 : List Str) ≠ [] := by simp
      have hI := ih q2 hne3 (fun x hx => hfree x (List.mem_cons_of_mem q hx))
      have hchain : (q ++ STAR :: interC STAR (q2 :: q3 :: qs3)).getLast? =
          (interC STAR (q2 :: q3 :: qs3)).getLast? := by
        have h1 : (q ++ STAR :: interC STAR (q2 :: q3 :: qs3)) =
            (q ++ [STAR]) ++ interC STAR (q2 :: q3 :: qs3) := by
          simp [List.append_assoc]
        rw [h1, getLast?_append_right (interC_ne_nil STAR q2 (q3 :: qs3) hne3)]
      have hES : endsWithStar (q ++ STAR :: interC STAR (q2 :: q3 :: qs3)) =
          endsWithStar (interC STAR (q2 :: q3 :: qs3)) := by
        unfold endsWithStar
        rw [hchain]
      rw [hES, List.getLast?_cons_cons]
      exact hI

theorem findSub_step (q r w t : Str)
    (hr : r = w ++ [STAR] ++ q ++ [STAR] ++ t) :
    ∃ position, findSub q r = some position ∧
      SuffixP ([STAR] ++ t) (r.drop (position + q.length)) := by
  have hinfix : InfixP q r := ⟨w ++ [STAR], [STAR] ++ t, by simp [hr, List.append_assoc]⟩
  have hsome := findSub_isSome_of_infixP q r hinfix
  cases hfind : findSub q r with
  | none => rw [hfind] at hsome; simp at hsome
  | some position =>
    refine ⟨position, rfl, ?_⟩
    have hmin := findSub_minimal q r position hfind (w ++ [STAR]) ([STAR] ++ t)
      (by simp [hr, List.append_assoc])
    have hlenr : r.length = w.length + 1 + q.length + 1 + t.length := by
      subst hr
      simp [List.length_append]
      omega
    have hmin2 : position ≤ w.length + 1 := by
      simpa using hmin
    have hlen_drop : ([STAR] ++ t).length ≤ (r.drop (position + q.length)).length := by
      rw [List.length_drop]
      simp only [List.length_append, List.length_cons, List.length_nil]
      omega
    exact suffixP_of_le _ _ r ⟨w ++ [STAR] ++ q, by simp [hr, List.append_assoc]⟩
      (suffixP_drop r _) hlen_drop

theorem matchLoop_complete (pattern : Str) (parts : List Str)
    (hend : endsWithStar pattern = true ↔ parts.getLast? = some []) :
    ∀ (ps : List Str) (index : Nat) (r : Str),
      index + ps.length = parts.length →
      (∃ w, parts = w ++ ps) →
      SuffixP ([STAR] ++ interC STAR ps) r →
      matchLoop pattern parts.length index ps r false = true := by
  intro ps
  induction ps with
  | nil => intro index r _ _ _; simp [matchLoop]
  | cons part rest ih =>
    intro index r hidx hw hsuf
    simp only [matchLoop]
    by_cases hpe : part.isEmpty = true
    · rw [if_pos hpe]
      have hpe2 : part = [] := List.isEmpty_iff.mp hpe
      subst hpe2
      have hsuf2 : SuffixP ([STAR] ++ interC STAR rest) r := by
        cases rest with
        | nil => simpa [interC] using hsuf
        | cons r2 rs2 =>
          have he : interC STAR ([] :: r2 :: rs2) = STAR :: interC STAR (r2 :: rs2) := rfl
          rw [he] at hsuf
          exact suffixP_trans ⟨[STAR], rfl⟩ hsuf
      obtain ⟨w, hwparts⟩ := hw
      exact ih (index + 1) r (by simp only [List.length_cons] at hidx ⊢; omega)
        ⟨w ++ [[]], by simp [hwparts]⟩ hsuf2
    · rw [if_neg hpe]
      have hpne : part ≠ [] := fun hc => hpe (by simp [hc])
      rw [if_neg (by simp)]
      cases rest with
      | nil =>
        obtain ⟨w, hwparts⟩ := hw
        have hlast : parts.getLast? = some part := by
          rw [hwparts]; exact List.getLast?_concat w
        have hendF : endsWithStar pattern = false := by
          cases hE : endsWithStar pattern with
          | false => rfl
          | true =>
            exfalso
            have h2 := hend.mp hE
            rw [hlast] at h2
            injection h2 with hinj
            exact hpne hinj
        have hidx1 : index = parts.length - 1 := by
          simp only [List.length_cons, List.length_nil] at hidx
          omega
        rw [if_pos (by simp [hidx1, hendF])]
        have hsufp : SuffixP part r := by
          have hstep : SuffixP part ([STAR] ++ interC STAR [part]) :=
            ⟨[STAR], by simp [interC]⟩
          exact suffixP_trans hstep hsuf
        rw [if_pos ((endsWithL_iff r part).mpr hsufp)]
        simp [matchLoop]
      | cons p2 ps2 =>
        have hbeqF : (index == parts.length - 1) = false := by
          rw [beq_eq_false_iff_ne]
          simp only [List.length_cons] at hidx
          omega
        rw [if_neg (by simp [hbeqF])]
        have hne2 : (p2 :: ps2 : List Str) ≠ [] := by simp
        obtain ⟨w0, hw0⟩ := hsuf
        have hdecomp : r = w0 ++ [STAR] ++ part ++ [STAR] ++ interC STAR (p2 :: ps2) := by
          rw [hw0, interC_cons STAR part (p2 :: ps2) hne2]
          simp [List.append_assoc]
        obtain ⟨position, hfind, hsuf2⟩ :=
          findSub_step part r w0 (interC STAR (p2 :: ps2)) hdecomp
        rw [hfind]
        obtain ⟨w, hwparts⟩ := hw
        exact ih (index + 1) _ (by simp only [List.length_cons] at hidx ⊢; omega)
          ⟨w ++ [part], by simp [hwparts]⟩ hsuf2

theorem matchLoop_entry (pattern : Str) (parts : List Str)
    (hlen : 2 ≤ parts.length)
    (hpat : pattern = interC STAR parts)
    (hstart : startsWithStar pattern = true ↔ parts.head? = some [])
    (hend : endsWithStar pattern = true ↔ parts.getLast? = some []) :
    ∀ (ps : List Str) (index : Nat),
      index + ps.length = parts.length →
      parts = List.replicate index [] ++ ps →
      matchLoop pattern parts.length index ps pattern true = true := by
  intro ps
  induction ps with
  | nil => intro index _ _; simp [matchLoop]
  | cons part rest ih =>
    intro index hidx hrep
    simp only [matchLoop]
    by_cases hpe : part.isEmpty = true
    · rw [if_pos hpe]
      have hpe2 : part = [] := List.isEmpty_iff.mp hpe
      subst hpe2
      refine ih (index + 1) (by simp only [List.length_cons] at hidx ⊢; omega) ?_
      rw [hrep, List.replicate_succ']
      simp
    · rw [if_neg hpe]
      have hpne : part ≠ [] := fun hc => hpe (by simp [hc])
      cases index with
      | zero =>
        simp only [List.replicate, List.nil_append] at hrep
        have hhead : parts.head? = some part := by rw [hrep]; rfl
        have hstartF : startsWithStar pattern = false := by
          cases hS : startsWithStar pattern with
          | false => rfl
          | true =>
            exfalso
            have h2 := hstart.mp hS
            rw [hhead] at h2
            injection h2 with hinj
            exact hpne hinj
        rw [if_pos (by simp [hstartF])]
        have hrest : rest ≠ [] := by
          intro hc
          rw [hrep, hc] at hlen
          simp at hlen
        have hpat2 : pattern = part ++ ([STAR] ++ interC STAR rest) := by
          rw [hpat, hrep, interC_cons STAR part rest hrest]
          simp
        rw [if_pos ((startsWithL_iff pattern part).mpr ⟨[STAR] ++ interC STAR rest, hpat2⟩)]
        have hdrop : pattern.drop part.length = [STAR] ++ interC STAR rest := by
          rw [hpat2]; exact List.drop_left part _
        rw [hdrop]
        exact matchLoop_complete pattern parts hend rest 1 _
          (by rw [hrep]; simp only [List.length_cons]; omega) ⟨[part], hrep⟩ (suffixP_refl _)
      | succ k =>
        have hheadE : parts.head? = some [] := by
          rw [hrep, List.replicate_succ]
          rfl
        have hstartT : startsWithStar pattern = true := hstart.mpr hheadE
        rw [if_neg (by simp [hstartT])]
        cases rest with
        | nil =>
          have hlast : parts.getLast? = some part := by
            rw [hrep]; exact List.getLast?_concat _
          have hendF : endsWithStar pattern = false := by
            cases hE : endsWithStar pattern with
            | false => rfl
            | true =>
              exfalso
              have h2 := hend.mp hE
              rw [hlast] at h2
              injection h2 with hinj
              exact hpne hinj
          have hidx1 : k + 1 = parts.length - 1 := by
            simp only [List.length_cons, List.length_nil] at hidx
            omega
          rw [if_pos (by simp [hidx1, hendF])]
          have hpat2 : pattern = List.replicate (k + 1) STAR ++ part := by
            rw [hpat, hrep, interC_replicate (k + 1) [part] (by simp)]
            simp [interC]
          rw [if_pos ((endsWithL_iff pattern part).mpr ⟨List.replicate (k + 1) STAR, hpat2⟩)]
          simp [matchLoop]
        | cons p2 ps2 =>
          have hbeqF : (k + 1 == parts.length - 1) = false := by
            rw [beq_eq_false_iff_ne]
            simp only [List.length_cons] at hidx
            omega
          rw [if_neg (by simp [hbeqF])]
          have hne2 : (p2 :: ps2 : List Str) ≠ [] := by simp
          have hpat2 : pattern =
              List.replicate k STAR ++ [STAR] ++ part ++ [STAR] ++ interC STAR (p2 :: ps2) := by
            rw [hpat, hrep, interC_replicate (k + 1) (part :: p2 :: ps2) (by simp),
              interC_cons STAR part (p2 :: ps2) hne2, List.replicate_succ']
            simp [List.append_assoc]
          obtain ⟨position, hfind, hsuf2⟩ :=
            findSub_step part pattern (List.replicate k STAR) (interC STAR (p2 :: ps2)) hpat2
          rw [hfind]
          exact matchLoop_complete pattern parts hend (p2 :: ps2) (k + 1 + 1) _
            (by simp only [List.length_cons] at hidx ⊢; omega)
            ⟨List.replicate (k + 1) [] ++ [part], by rw [hrep]; simp⟩ hsuf2

theorem matches_wildcard_refl (p : Str) : matches_wildcard_pattern p p = true := by
  unfold matches_wildcard_pattern
  by_cases hl : (splitOnChar STAR p).length = 1
  · rw [if_pos hl]
    cases p with
    | nil => rfl
    | cons a t =>
      simp only [containsL, findSub]
      rw [if_pos (startsWithL_refl (a :: t))]
      rfl
  · rw [if_neg hl]
    have hnn := splitOnChar_ne_nil STAR p
    obtain ⟨q, qs, hqq⟩ : ∃ q qs, splitOnChar STAR p = q :: qs := by
      cases h : splitOnChar STAR p with
      | nil => exact absurd h hnn
      | cons q qs => exact ⟨q, qs, rfl⟩
    have hqs : qs ≠ [] := by
      intro hc
      apply hl
      rw [hqq, hc]
      rfl
    have hlen2 : 2 ≤ (splitOnChar STAR p).length := by
      rw [hqq]
      cases qs with
      | nil => exact absurd rfl hqs
      | cons q2 qs2 => simp only [List.length_cons]; omega
    have hpat : p = interC STAR (splitOnChar STAR p) := (interC_splitOnChar STAR p).symm
    have hfree := splitOnChar_not_mem STAR p
    have hp2 : interC STAR (q :: qs) = p := by
      rw [← hqq]
      exact interC_splitOnChar STAR p
    have hstart : startsWithStar p = true ↔ (splitOnChar STAR p).head? = some [] := by
      rw [hqq, ← hp2]
      exact startsWithStar_interC q qs hqs
        (hfree q (by rw [hqq]; exact List.mem_cons_self q qs))
    have hend : endsWithStar p = true ↔ (splitOnChar STAR p).getLast? = some [] := by
      rw [hqq, ← hp2]
      exact endsWithStar_interC qs q hqs (fun x hx => hfree x (by rw [hqq]; exact hx))
    exact matchLoop_entry p (splitOnChar STAR p) hlen2 hpat hstart hend
      (splitOnChar STAR p) 0 (by simp) (by simp)

theorem contains_iff_mem (l : List Str) (a : Str) : l.contains a = true ↔ a ∈ l :=
  List.elem_iff

theorem rposition_get (x : Str) :
    ∀ (l : List Str) (pos : Nat), rposition x l = some pos → l.get? pos = some x := by
  intro l
  induction l with
  | nil => intro pos h; simp [rposition] at h
  | cons a rest ih =>
    intro pos h
    simp only [rposition] at h
    cases hr : rposition x rest with
    | some i =>
      rw [hr] at h
      injection h with hpos
      subst hpos
      simpa using ih i hr
    | none =>
      rw [hr] at h
      by_cases hax : (a == x) = true
      · rw [if_pos hax] at h
        injection h with hpos
        subst hpos
        simp only [List.get?_cons_zero]
        rw [beq_iff_eq] at hax
        rw [hax]
      · rw [if_neg hax] at h
        exact absurd h (by simp)

theorem rposition_none (x : Str) :
    ∀ (l : List Str), rposition x l = none → ∀ j, l.get? j ≠ some x := by
  intro l
  induction l with
  | nil => intro _ j; simp
  | cons a rest ih =>
    intro h j
    simp only [rposition] at h
    cases hr : rposition x rest with
    | some i => rw [hr] at h; exact absurd h (by simp)
    | none =>
      rw [hr] at h
      by_cases hax : (a == x) = true
      · rw [if_pos hax] at h; exact absurd h (by simp)
      · rw [if_neg hax] at h
        cases j with
        | zero =>
          simp only [List.get?_cons_zero]
          intro hc
          injection hc with hc2
          exact hax (by simp [hc2])
        | succ j2 =>
          simp only [List.get?_cons_succ]
          exact ih hr j2

theorem rposition_last (x : Str) :
    ∀ (l : List Str) (pos : Nat), rposition x l = some pos →
      ∀ j, pos < j → l.get? j ≠ some x := by
  intro l
  induction l with
  | nil => intro pos h; simp [rposition] at h
  | cons a rest ih =>
    intro pos h j hj
    simp only [rposition] at h
    cases hr : rposition x rest with
    | some i =>
      rw [hr] at h
      injection h with hpos
      subst hpos
      cases j with
      | zero => omega
      | succ j2 =>
        simp only [List.get?_cons_succ]
        exact ih i hr j2 (by omega)
    | none =>
      rw [hr] at h
      by_cases hax : (a == x) = true
      · rw [if_pos hax] at h
        injection h with hpos
        subst hpos
        cases j with
        | zero => omega
        | succ j2 =>
          simp only [List.get?_cons_succ]
          exact rposition_none x rest hr j2
      · rw [if_neg hax] at h
        exact absurd h (by simp)

theorem rposition_complete (x : Str) :
    ∀ (l : List Str) (pos : Nat), l.get? pos = some x →
      (∀ j, pos < j → l.get? j ≠ some x) → rposition x l = some pos := by
  intro l pos hget hlast
  cases hr : rposition x l with
  | none => exact absurd hget (rposition_none x l hr pos)
  | some i =>
    have h1 := rposition_get x l i hr
    rcases Nat.lt_trichotomy i pos with h | h | h
    · exact absurd hget (rposition_last x l i hr pos h)
    · rw [h]
    · exact absurd h1 (hlast i h)

theorem take_any_iff (f : Str → Bool) :
    ∀ (l : List Str) (n : Nat), (l.take n).any f = true ↔
      ∃ i, i < n ∧ ∃ c, l.get? i = some c ∧ f c = true := by
  intro l
  induction l with
  | nil => intro n; simp
  | cons a rest ih =>
    intro n
    cases n with
    | zero => simp
    | succ m =>
      simp only [List.take_succ_cons, List.any_cons, Bool.or_eq_true, ih]
      constructor
      · rintro (hf | ⟨i, hi, c, hc, hfc⟩)
        · exact ⟨0, Nat.succ_pos m, a, rfl, hf⟩
        · exact ⟨i + 1, by omega, c, by simpa using hc, hfc⟩
      · rintro ⟨i, hi, c, hc, hfc⟩
        cases i with
        | zero =>
          left
          simp only [List.get?_cons_zero] at hc
          injection hc with hca
          rw [hca]
          exact hfc
        | succ i2 =>
          right
          exact ⟨i2, by omega, c, by simpa using hc, hfc⟩

/-- Claim C5: nested-dependency detection returns true exactly when, among
the separator-split components of the path, some component strictly before
the LAST component equal to the directory's own basename is, as a whole
component, one of the known dependency directory names; components that
merely contain a dependency name as a substring (node_modules_backup) never
fire, and monorepo layouts such as packages/A/node_modules are retained. -/
theorem C5_nested_detection :
    (∀ (path_string current_dir_name : Str) (all_dependency_dirs : List Str),
      is_inside_dependency_directory path_string current_dir_name all_dependency_dirs = true ↔
        ∃ position,
          (splitOnChar MAIN_SEPARATOR path_string).get? position = some current_dir_name ∧
          (∀ j, position < j →
            (splitOnChar MAIN_SEPARATOR path_string).get? j ≠ some current_dir_name) ∧
          ∃ i, i < position ∧
            ∃ component,
              (splitOnChar MAIN_SEPARATOR path_string).get? i = some component ∧
              component ∈ all_dependency_dirs) ∧
    is_inside_dependency_directory "packages/A/node_modules".toList "node_modules".toList
      get_all_dependency_directory_names = false ∧
    is_inside_dependency_directory "root/node_modules_backup/app/node_modules".toList
      "node_modules".toList get_all_dependency_directory_names = false ∧
    is_inside_dependency_directory "app/node_modules/.pnpm/x/node_modules".toList
      "node_modules".toList get_all_dependency_directory_names = true := by
  refine ⟨?_, by decide, by decide, by decide⟩
  intro p name deps
  cases hr : rposition name (splitOnChar MAIN_SEPARATOR p) with
  | none =>
    simp only [is_inside_dependency_directory, hr]
    constructor
    · intro h; exact absurd h (by simp)
    · rintro ⟨pos, hget, hlast, _⟩
      have := rposition_complete name _ pos hget hlast
      rw [hr] at this
      exact absurd this (by simp)
  | some position =>
    simp only [is_inside_dependency_directory, hr]
    rw [take_any_iff]
    constructor
    · rintro ⟨i, hi, c, hc, hfc⟩
      exact ⟨position, rposition_get name _ position hr, rposition_last name _ position hr,
        i, hi, c, hc, (contains_iff_mem deps c).mp hfc⟩
    · rintro ⟨pos, hget, hlast, i, hi, c, hc, hmem⟩
      have hpp : pos = position := by
        have := rposition_complete name _ pos hget hlast
        rw [hr] at this
        injection this with h2
        exact h2.symm
      subst hpp
      exact ⟨i, hi, c, hc, (contains_iff_mem deps c).mpr hmem⟩

/-- Claim C8: the wildcard matcher accepts every path for the pattern
consisting of a single star, accepts every path for the empty pattern, and
every pattern matches the path equal to itself. -/
theorem C8_wildcard_identities :
    (∀ path : Str, matches_wildcard_pattern path "*".toList = true) ∧
    (∀ path : Str, matches_wildcard_pattern path "".toList = true) ∧
    (∀ p : Str, matches_wildcard_pattern p p = true) := by
  refine ⟨?_, ?_, matches_wildcard_refl⟩
  · intro path
    rfl
  · intro path
    cases path <;> rfl

theorem sizingLoop_ok_step (n rc t : Nat) (es : List DirectoryEntry) (s : Nat)
    (rest : List RecvEvent) (r : SizeCalculationResult) :
    sizingLoop n (RecvEvent.ok r :: rest) rc t es s =
      if rc < n then
        sizingLoop n rest (rc + 1) 0 (es ++ [mkDirectoryEntry r])
          ((s + r.total_size) % U64MOD)
      else ⟨es, s, rc, false⟩ := rfl

theorem sizingLoop_timeout_step (n rc t : Nat) (es : List DirectoryEntry) (s : Nat)
    (rest : List RecvEvent) :
    sizingLoop n (RecvEvent.timeout :: rest) rc t es s =
      if rc < n then
        if MAX_TIMEOUT_RETRIES ≤ t + 1 then ⟨es, s, rc, true⟩
        else sizingLoop n rest rc (t + 1) es s
      else ⟨es, s, rc, false⟩ := rfl

theorem sizingLoop_nil (n rc t : Nat) (es : List DirectoryEntry) (s : Nat) :
    sizingLoop n [] rc t es s = ⟨es, s, rc, false⟩ := by
  rw [sizingLoop]
  split <;> rfl

/-- Claim C1 counterexample: with two results still outstanding, a trace of
exactly three consecutive timeouts (no fourth ever occurs) already abandons
the sizing phase, while two consecutive timeouts do not - so the loop
abandons on the 3rd consecutive timeout, not the 4th. -/
theorem C1_counterexample :
    (execute_sizing_phase 2
      [RecvEvent.timeout, RecvEvent.timeout, RecvEvent.timeout]).abandoned = true ∧
    (execute_sizing_phase 2 [RecvEvent.timeout, RecvEvent.timeout]).abandoned = false := by
  constructor <;> rfl

/-- Claim C1 (amended): the sizing phase reads results with the 30-second
per-result receive; up to TWO consecutive timeouts are tolerated and the
loop abandons collection on the THIRD consecutive timeout (the break fires
when the counter reaches `MAX_TIMEOUT_RETRIES = 3`), while a successful
receive resets the consecutive-timeout count to zero. -/
theorem C1_sizing_timeouts (n c s : Nat) (es : List DirectoryEntry)
    (rest : List RecvEvent) (r : SizeCalculationResult) (h : c < n) :
    (sizingLoop n (RecvEvent.timeout :: RecvEvent.timeout :: RecvEvent.timeout :: rest)
        c 0 es s).abandoned = true ∧
    sizingLoop n (RecvEvent.timeout :: RecvEvent.timeout :: rest) c 0 es s =
      sizingLoop n rest c 2 es s ∧
    (∀ t, sizingLoop n (RecvEvent.ok r :: rest) c t es s =
      sizingLoop n rest (c + 1) 0 (es ++ [mkDirectoryEntry r])
        ((s + r.total_size) % U64MOD)) ∧
    MAX_TIMEOUT_RETRIES = 3 ∧ RECV_TIMEOUT_SECS = 30 := by
  have hA : ¬ (MAX_TIMEOUT_RETRIES ≤ 0 + 1) := by decide
  have hB : ¬ (MAX_TIMEOUT_RETRIES ≤ 0 + 1 + 1) := by decide
  have hC : MAX_TIMEOUT_RETRIES ≤ 0 + 1 + 1 + 1 := by decide
  refine ⟨?_, ?_, ?_, rfl, rfl⟩
  · rw [sizingLoop_timeout_step, if_pos h, if_neg hA,
      sizingLoop_timeout_step, if_pos h, if_neg hB,
      sizingLoop_timeout_step, if_pos h, if_pos hC]
  · rw [sizingLoop_timeout_step, if_pos h, if_neg hA,
      sizingLoop_timeout_step, if_pos h, if_neg hB]
  · intro t
    rw [sizingLoop_ok_step, if_pos h]

/-- Claim C1 witness: the amended behaviour at the concrete state with one
outstanding result and an empty remaining trace. -/
theorem C1_sizing_timeouts_witness :
    0 < 1 ∧
    ((sizingLoop 1 (RecvEvent.timeout :: RecvEvent.timeout :: RecvEvent.timeout :: [])
        0 0 [] 0).abandoned = true ∧
    sizingLoop 1 (RecvEvent.timeout :: RecvEvent.timeout :: []) 0 0 [] 0 =
      sizingLoop 1 [] 0 2 [] 0 ∧
    (∀ t, sizingLoop 1 (RecvEvent.ok sampleResult :: []) 0 t [] 0 =
      sizingLoop 1 [] (0 + 1) 0 ([] ++ [mkDirectoryEntry sampleResult])
        ((0 + sampleResult.total_size) % U64MOD)) ∧
    MAX_TIMEOUT_RETRIES = 3 ∧ RECV_TIMEOUT_SECS = 30) :=
  ⟨by decide, C1_sizing_timeouts 1 0 0 [] [] sampleResult (by decide)⟩

theorem sizingLoop_total_invariant (n : Nat) :
    ∀ (events : List RecvEvent) (rc t : Nat) (es : List DirectoryEntry) (s : Nat),
      s = (es.map (fun e => e.size_bytes)).sum % U64MOD →
      (sizingLoop n events rc t es s).running_total_size =
        ((sizingLoop n events rc t es s).entries.map (fun e => e.size_bytes)).sum % U64MOD := by
  intro events
  induction events with
  | nil =>
    intro rc t es s hs
    rw [sizingLoop_nil]
    simpa using hs
  | cons ev rest ih =>
    intro rc t es s hs
    cases ev with
    | ok r =>
      rw [sizingLoop_ok_step]
      split
      · apply ih
        rw [hs]
        simp only [List.map_append, List.sum_append, List.map_cons, List.map_nil,
          List.sum_cons, List.sum_nil, mkDirectoryEntry]
        rw [Nat.mod_add_mod]
        simp
      · simpa using hs
    | timeout =>
      rw [sizingLoop_timeout_step]
      split
      · split
        · simpa using hs
        · exact ih rc (t + 1) es s hs
      · simpa using hs

theorem insertBySizeDesc_perm (e : DirectoryEntry) :
    ∀ (l : List DirectoryEntry), (insertBySizeDesc e l).Perm (e :: l) := by
  intro l
  induction l with
  | nil => simp [insertBySizeDesc]
  | cons a rest ih =>
    simp only [insertBySizeDesc]
    split
    · exact List.Perm.refl _
    · exact (ih.cons a).trans (List.Perm.swap e a rest)

theorem sortBySizeDesc_perm :
    ∀ (l : List DirectoryEntry), (sortBySizeDesc l).Perm l := by
  intro l
  induction l with
  | nil => simp [sortBySizeDesc]
  | cons e rest ih =>
    simp only [sortBySizeDesc]
    exact (insertBySizeDesc_perm e (sortBySizeDesc rest)).trans (ih.cons e)

/-- Claim C3: every `ScanResult` built by finalizing a completed collection
loop has `total_size` equal (in u64 arithmetic) to the sum of `size_bytes`
over its entries; whenever the mathematical sum fits in u64 the equality is
exact. -/
theorem C3_total_size_sum (discovered_count scan_time_ms skipped_count : Nat)
    (events : List RecvEvent) :
    (finalizeScan (execute_sizing_phase discovered_count events) scan_time_ms
        skipped_count).total_size =
      ((finalizeScan (execute_sizing_phase discovered_count events) scan_time_ms
        skipped_count).entries.map (fun e => e.size_bytes)).sum % U64MOD ∧
    (((finalizeScan (execute_sizing_phase discovered_count events) scan_time_ms
        skipped_count).entries.map (fun e => e.size_bytes)).sum < U64MOD →
      (finalizeScan (execute_sizing_phase discovered_count events) scan_time_ms
          skipped_count).total_size =
        ((finalizeScan (execute_sizing_phase discovered_count events) scan_time_ms
          skipped_count).entries.map (fun e => e.size_bytes)).sum) := by
  have hsum :
      ((finalizeScan (execute_sizing_phase discovered_count events) scan_time_ms
        skipped_count).entries.map (fun e => e.size_bytes)).sum =
      (((execute_sizing_phase discovered_count events).entries).map
        (fun e => e.size_bytes)).sum := by
    apply List.Perm.sum_eq
    apply List.Perm.map
    exact sortBySizeDesc_perm _
  have htotal :
      (finalizeScan (execute_sizing_phase discovered_count events) scan_time_ms
        skipped_count).total_size =
      (((execute_sizing_phase discovered_count events).entries).map
        (fun e => e.size_bytes)).sum % U64MOD := by
    exact sizingLoop_total_invariant discovered_count events 0 0 [] 0 (by simp)
  constructor
  · rw [htotal, hsum]
  · intro hlt
    rw [htotal, ← hsum, Nat.mod_eq_of_lt hlt]

/-- Claim C3 witness: the exact sum equality at a one-result trace. -/
theorem C3_total_size_sum_witness :
    ((finalizeScan (execute_sizing_phase 1 [RecvEvent.ok sampleResult]) 0 0).entries.map
        (fun e => e.size_bytes)).sum < U64MOD ∧
    (finalizeScan (execute_sizing_phase 1 [RecvEvent.ok sampleResult]) 0 0).total_size =
      ((finalizeScan (execute_sizing_phase 1 [RecvEvent.ok sampleResult]) 0 0).entries.map
        (fun e => e.size_bytes)).sum :=
  ⟨by decide, (C3_total_size_sum 1 0 0 [RecvEvent.ok sampleResult]).2 (by decide)⟩

theorem anyEntryHasSymlink_iff :
    ∀ (cs : List FsTree), anyEntryHasSymlink cs = true ↔ SubSymlink cs := by
  intro cs
  induction cs using anyEntryHasSymlink.induct with
  | case1 =>
    constructor
    · intro h; simp [anyEntryHasSymlink] at h
    · intro h; cases h
  | case2 rest => simp [anyEntryHasSymlink]; exact SubSymlink.head rest
  | case3 cs2 rest ih1 ih2 =>
    simp only [anyEntryHasSymlink, Bool.or_eq_true, ih1, ih2]
    constructor
    · rintro (h | h)
      · exact SubSymlink.inDir cs2 rest h
      · exact SubSymlink.tail _ rest h
    · intro h
      cases h with
      | inDir _ _ h2 => exact Or.inl h2
      | tail _ _ h2 => exact Or.inr h2
  | case4 sz mt rest ih =>
    simp only [anyEntryHasSymlink, ih]
    constructor
    · intro h
      exact SubSymlink.tail _ rest h
    · intro h
      cases h with
      | tail _ _ h2 => exact h2

theorem sizeFold_no_file :
    ∀ (walked : List WalkedMeta) (acc : SizeAcc),
      (∀ m ∈ walked, m.is_file = false) → walked.foldl sizeStep acc = acc := by
  intro walked
  induction walked with
  | nil => intro acc _; rfl
  | cons m rest ih =>
    intro acc h
    have hm : m.is_file = false := h m (List.mem_cons_self m rest)
    simp only [List.foldl_cons]
    rw [show sizeStep acc m = acc from by simp [sizeStep, hm]]
    exact ih acc (fun x hx => h x (List.mem_cons_of_mem m hx))

theorem sizeFold_hrc :
    ∀ (walked : List WalkedMeta) (acc : SizeAcc),
      (walked.foldl sizeStep acc).has_real_content =
        (acc.has_real_content || walked.any (fun m => m.is_file)) := by
  intro walked
  induction walked with
  | nil => intro acc; simp
  | cons m rest ih =>
    intro acc
    simp only [List.foldl_cons, List.any_cons]
    rw [ih]
    by_cases hm : m.is_file = true
    · simp [sizeStep, hm]
    · have hm2 : m.is_file = false := by
        cases h2 : m.is_file
        · rfl
        · exact absurd h2 hm
      simp [sizeStep, hm2]

/-- Claim C4: whenever the sizer reports `has_only_symlinks`, it counted no
file and no bytes; and when the link-following walk encountered no regular
file, the flag is set exactly when the unresolved subtree of the (directory)
root contains at least one symbolic link. -/
theorem C4_symlink_flag (walked : List WalkedMeta) (tree : FsTree) (rootMtimeMs : Nat)
    (cs : List FsTree) :
    ((calculate_dir_size_full walked tree rootMtimeMs).has_only_symlinks = true →
      (calculate_dir_size_full walked tree rootMtimeMs).file_count = 0 ∧
      (calculate_dir_size_full walked tree rootMtimeMs).total_size = 0) ∧
    ((∀ m ∈ walked, m.is_file = false) → tree = FsTree.dir cs →
      ((calculate_dir_size_full walked tree rootMtimeMs).has_only_symlinks = true ↔
        SubSymlink cs)) := by
  constructor
  · intro hflag
    have hrc : (walked.foldl sizeStep ⟨0, 0, false, 0⟩).has_real_content = false := by
      by_contra hc
      have ht : (walked.foldl sizeStep ⟨0, 0, false, 0⟩).has_real_content = true := by
        cases h2 : (walked.foldl sizeStep ⟨0, 0, false, 0⟩).has_real_content
        · exact absurd h2 hc
        · rfl
      simp only [calculate_dir_size_full, ht] at hflag
      simp at hflag
    have hnofile : ∀ m ∈ walked, m.is_file = false := by
      have h2 := sizeFold_hrc walked ⟨0, 0, false, 0⟩
      rw [hrc] at h2
      have h3 : walked.any (fun m => m.is_file) = false := by
        simpa using h2.symm
      intro m hm
      by_contra hc
      have hct : m.is_file = true := by
        cases h4 : m.is_file
        · exact absurd h4 hc
        · rfl
      have : walked.any (fun m => m.is_file) = true :=
        List.any_eq_true.mpr ⟨m, hm, hct⟩
      rw [h3] at this
      exact absurd this (by simp)
    have hid := sizeFold_no_file walked ⟨0, 0, false, 0⟩ hnofile
    constructor
    · simp only [calculate_dir_size_full, hid]
    · simp only [calculate_dir_size_full, hid]
  · intro hnofile htree
    have hid := sizeFold_no_file walked ⟨0, 0, false, 0⟩ hnofile
    subst htree
    simp only [calculate_dir_size_full, hid]
    simpa [check_directory_has_symlinks] using anyEntryHasSymlink_iff cs

/-- Claim C4 witness: an empty walk over a directory holding one symbolic
link; the flag is reported and the subtree indeed holds a symlink. -/
theorem C4_symlink_flag_witness :
    (∀ m ∈ ([] : List WalkedMeta), m.is_file = false) ∧
    ((calculate_dir_size_full [] (FsTree.dir [FsTree.symlink]) 0).has_only_symlinks = true ↔
      SubSymlink [FsTree.symlink]) :=
  ⟨by simp,
    (C4_symlink_flag [] (FsTree.dir [FsTree.symlink]) 0 [FsTree.symlink]).2 (by simp) rfl⟩

/-- Claim C6 counterexample: a vendor directory holding a regular FILE named
composer together with a directory bundle. `Path::exists` ignores the entry
kind, so the code answers Composer from the first branch, while the claim's
wording (a child DIRECTORY named composer) falls through to the bundle
branch and answers Bundler. -/
theorem C6_counterexample :
    DependencyCategory.from_vendor_directory
        ⟨[("composer".toList, NodeKind.file), ("bundle".toList, NodeKind.dir)],
          false, false⟩ =
      some DependencyCategory.Composer ∧
    specVendorCategory
        ⟨[("composer".toList, NodeKind.file), ("bundle".toList, NodeKind.dir)],
          false, false⟩ =
      some DependencyCategory.Bundler := by
  constructor <;> decide

/-- Claim C6 (amended): vendor resolution returns Composer when an entry OF
ANY KIND named autoload.php or composer is present; otherwise Bundler when
an entry named bundle is present; otherwise Bundler when the parent holds
Gemfile; otherwise Composer by default - and it never returns none. -/
theorem C6_vendor_resolution (ctx : DirContext) :
    ((ctx.childExists "autoload.php".toList || ctx.childExists "composer".toList) = true →
      DependencyCategory.from_vendor_directory ctx = some DependencyCategory.Composer) ∧
    ((ctx.childExists "autoload.php".toList || ctx.childExists "composer".toList) = false →
      ctx.childExists "bundle".toList = true →
      DependencyCategory.from_vendor_directory ctx = some DependencyCategory.Bundler) ∧
    ((ctx.childExists "autoload.php".toList || ctx.childExists "composer".toList) = false →
      ctx.childExists "bundle".toList = false → ctx.parentHasGemfile = true →
      DependencyCategory.from_vendor_directory ctx = some DependencyCategory.Bundler) ∧
    ((ctx.childExists "autoload.php".toList || ctx.childExists "composer".toList) = false →
      ctx.childExists "bundle".toList = false → ctx.parentHasGemfile = false →
      DependencyCategory.from_vendor_directory ctx = some DependencyCategory.Composer) ∧
    (DependencyCategory.from_vendor_directory ctx).isSome = true := by
  refine ⟨?_, ?_, ?_, ?_, ?_⟩
  · intro h
    rw [Bool.or_eq_true] at h
    rcases h with ha | hb <;> simp_all [DependencyCategory.from_vendor_directory]
  · intro h1 h2
    rw [Bool.or_eq_false_iff] at h1
    simp_all [DependencyCategory.from_vendor_directory]
  · intro h1 h2 h3
    rw [Bool.or_eq_false_iff] at h1
    simp_all [DependencyCategory.from_vendor_directory]
  · intro h1 h2 h3
    rw [Bool.or_eq_false_iff] at h1
    simp_all [DependencyCategory.from_vendor_directory]
  · simp only [DependencyCategory.from_vendor_directory]
    split
    · rfl
    · split
      · rfl
      · split <;> rfl

/-- Claim C6 witness: the amended first branch at a vendor directory holding
autoload.php. -/
theorem C6_vendor_resolution_witness :
    (DirContext.childExists
        ⟨[("autoload.php".toList, NodeKind.file)], false, false⟩ "autoload.php".toList ||
      DirContext.childExists
        ⟨[("autoload.php".toList, NodeKind.file)], false, false⟩ "composer".toList) = true ∧
    DependencyCategory.from_vendor_directory
        ⟨[("autoload.php".toList, NodeKind.file)], false, false⟩ =
      some DependencyCategory.Composer :=
  ⟨by decide,
    (C6_vendor_resolution ⟨[("autoload.php".toList, NodeKind.file)], false, false⟩).1
      (by decide)⟩

theorem is_dependency_dir_name_iff (name : Str) :
    is_dependency_dir_name name = true ↔ name ∈ knownDepNames := by
  simp only [is_dependency_dir_name, DependencyCategory.from_directory_name, knownDepNames,
    List.mem_cons, List.not_mem_nil, or_false]
  split_ifs with h1 h2 h3 h4 <;>
    simp_all [beq_iff_eq, Bool.or_eq_true, Option.isSome] <;> tauto

theorem bool_eq_false {b : Bool} (h : ¬ b = true) : b = false := by
  cases b
  · rfl
  · exact absurd rfl h

theorem validate_not_dep (fs : DeleteFs) (path canonical name : Str)
    (hc : fs.canonicalize path = Except.ok canonical)
    (hex : fs.pathExists canonical = true)
    (hdir : fs.isDir canonical = true)
    (hfn : fs.fileName canonical = some name)
    (hmem : name ∉ knownDepNames) :
    validate_delete_path fs path =
      Except.error DeleteValidationError.NotDependencyDirectory := by
  have hdepF : is_dependency_dir_name name = false := by
    cases h2 : is_dependency_dir_name name
    · rfl
    · exact absurd ((is_dependency_dir_name_iff name).mp h2) hmem
  simp [validate_delete_path, canonicalize_path, hc, hex, hdir, hfn, hdepF]

/-- Claim C2: delete validation accepts a path exactly when canonicalization
succeeds and the canonical path exists, is a directory, and has a basename
among the eight dependency directory names; and whenever the canonical
basename is not a dependency name - as for a traversal whose canonical form
is a non-dependency directory - validation answers NotDependencyDirectory
and the delete command attempts no destructive filesystem call. -/
theorem C2_delete_validation (fs : DeleteFs) (env : DeleteEnv) (path : Str) :
    ((∃ canonical, validate_delete_path fs path = Except.ok canonical) ↔
      (∃ canonical, fs.canonicalize path = Except.ok canonical ∧
        fs.pathExists canonical = true ∧ fs.isDir canonical = true ∧
        ∃ name, fs.fileName canonical = some name ∧ name ∈ knownDepNames)) ∧
    (∀ canonical name,
      fs.canonicalize path = Except.ok canonical →
      fs.pathExists canonical = true →
      fs.isDir canonical = true →
      fs.fileName canonical = some name →
      name ∉ knownDepNames →
      validate_delete_path fs path =
        Except.error DeleteValidationError.NotDependencyDirectory ∧
      (delete_to_trash fs env path).2 = [] ∧
      (delete_to_trash fs env path).1 =
        Except.error DeleteValidationError.NotDependencyDirectory.message) := by
  constructor
  · constructor
    · rintro ⟨c, hok⟩
      cases hc : fs.canonicalize path with
      | error e => simp [validate_delete_path, canonicalize_path, hc] at hok
      | ok c0 =>
        simp only [validate_delete_path, canonicalize_path, hc] at hok
        by_cases hex : fs.pathExists c0 = true
        · by_cases hdir : fs.isDir c0 = true
          · cases hfn : fs.fileName c0 with
            | none => simp [hex, hdir, hfn] at hok
            | some name =>
              by_cases hdep : is_dependency_dir_name name = true
              · exact ⟨c0, rfl, hex, hdir, name, hfn,
                  (is_dependency_dir_name_iff name).mp hdep⟩
              · simp [hex, hdir, hfn, bool_eq_false hdep] at hok
          · simp [hex, bool_eq_false hdir] at hok
        · simp [bool_eq_false hex] at hok
    · rintro ⟨c, hc, hex, hdir, name, hfn, hmem⟩
      refine ⟨c, ?_⟩
      simp [validate_delete_path, canonicalize_path, hc, hex, hdir, hfn,
        (is_dependency_dir_name_iff name).mpr hmem]
  · intro c name hc hex hdir hfn hmem
    have hval := validate_not_dep fs path c name hc hex hdir hfn hmem
    refine ⟨hval, ?_, ?_⟩
    · simp [delete_to_trash, hval]
    · simp [delete_to_trash, hval]

/-- Claim C2 witness: the traversal scenario - the input
root/proj/node_modules/../../sensitive canonicalizes to root/sensitive,
which exists and is a directory but has a non-dependency basename, so
validation answers NotDependencyDirectory and no destructive call is made. -/
theorem C2_delete_validation_witness :
    (fsTraversal.canonicalize traversalInput = Except.ok sensitivePath ∧
      fsTraversal.pathExists sensitivePath = true ∧
      fsTraversal.isDir sensitivePath = true ∧
      fsTraversal.fileName sensitivePath = some "sensitive".toList ∧
      "sensitive".toList ∉ knownDepNames) ∧
    (validate_delete_path fsTraversal traversalInput =
        Except.error DeleteValidationError.NotDependencyDirectory ∧
      (delete_to_trash fsTraversal envDefault traversalInput).2 = [] ∧
      (delete_to_trash fsTraversal envDefault traversalInput).1 =
        Except.error DeleteValidationError.NotDependencyDirectory.message) :=
  ⟨⟨rfl, by decide, by decide, by decide, by decide⟩,
    (C2_delete_validation fsTraversal envDefault traversalInput).2 sensitivePath
      "sensitive".toList rfl (by decide) (by decide) (by decide) (by decide)⟩

/-- Claim C9: delete validation never reports DoesNotExist: under the OS
contract of `Path::canonicalize` - success implies the resolved path exists,
since realpath fails with ENOENT otherwise - the existence check performed
on the canonical path is unreachable, a nonexistent input having already
surfaced as InvalidPath. -/
theorem C9_does_not_exist_unreachable (fs : DeleteFs) (path : Str)
    (hos : ∀ canonical, fs.canonicalize path = Except.ok canonical →
      fs.pathExists canonical = true) :
    validate_delete_path fs path ≠ Except.error DeleteValidationError.DoesNotExist := by
  cases hc : fs.canonicalize path with
  | error e => simp [validate_delete_path, canonicalize_path, hc]
  | ok c =>
    have hex := hos c hc
    simp only [validate_delete_path, canonicalize_path, hc, hex, Bool.not_true]
    split
    · simp_all
    · split
      · simp
      · split <;> simp

/-- Claim C9 witness: the unreachability at the concrete traversal
filesystem, whose canonicalize output indeed exists. -/
theorem C9_does_not_exist_unreachable_witness :
    (∀ canonical, fsTraversal.canonicalize traversalInput = Except.ok canonical →
      fsTraversal.pathExists canonical = true) ∧
    validate_delete_path fsTraversal traversalInput ≠
      Except.error DeleteValidationError.DoesNotExist := by
  have hos : ∀ canonical, fsTraversal.canonicalize traversalInput = Except.ok canonical →
      fsTraversal.pathExists canonical = true := by
    intro c h
    have h0 : fsTraversal.canonicalize traversalInput = Except.ok sensitivePath := rfl
    rw [h0] at h
    injection h with h2
    subst h2
    decide
  exact ⟨hos, C9_does_not_exist_unreachable fsTraversal traversalInput hos⟩

/-- Claim C7: batch delete returns one result per input path, in submission
order: a task that completed Ok contributes its result at the input's index,
a failed single delete contributes a success=false entry carrying the path,
and a panicked task contributes the sentinel failure entry - the batch never
aborts early. -/
theorem C7_batch_delete (outcome : Str → TaskOutcome) (paths : List Str) :
    (delete_all_to_trash outcome paths).length = paths.length ∧
    (∀ i (hi : i < paths.length) result,
      outcome (paths.get ⟨i, hi⟩) = TaskOutcome.completed (Except.ok result) →
      (delete_all_to_trash outcome paths).get? i = some result) ∧
    (∀ i (hi : i < paths.length) e,
      outcome (paths.get ⟨i, hi⟩) = TaskOutcome.completed (Except.error e) →
      (delete_all_to_trash outcome paths).get? i =
        some ⟨false, paths.get ⟨i, hi⟩, 0⟩) ∧
    (∀ i (hi : i < paths.length),
      outcome (paths.get ⟨i, hi⟩) = TaskOutcome.panicked →
      (delete_all_to_trash outcome paths).get? i =
        some ⟨false, "unknown (task panicked)".toList, 0⟩) := by
  refine ⟨by simp [delete_all_to_trash], ?_, ?_, ?_⟩
  · intro i hi result hout
    simp only [List.get_eq_getElem] at hout
    simp only [delete_all_to_trash, List.get?_map, List.get?_eq_get hi]
    simp [hout]
  · intro i hi e hout
    simp only [List.get_eq_getElem] at hout
    simp only [delete_all_to_trash, List.get?_map, List.get?_eq_get hi]
    simp [hout]
  · intro i hi hout
    simp only [List.get_eq_getElem] at hout
    simp only [delete_all_to_trash, List.get?_map, List.get?_eq_get hi]
    simp [hout]

/-- Claim C7 witness: three deletable paths plus one failing path give four
results in order, the failing one a success=false entry at its index. -/
theorem C7_batch_delete_witness :
    3 < batchPaths.length ∧
    batchOutcome (batchPaths.get ⟨3, by decide⟩) =
      TaskOutcome.completed (Except.error "Directory does not exist".toList) ∧
    (delete_all_to_trash batchOutcome batchPaths).length = batchPaths.length ∧
    (delete_all_to_trash batchOutcome batchPaths).get? 3 =
      some ⟨false, batchPaths.get ⟨3, by decide⟩, 0⟩ := by
  refine ⟨by decide, rfl, (C7_batch_delete batchOutcome batchPaths).1, ?_⟩
  exact (C7_batch_delete batchOutcome batchPaths).2.2.1 3 (by decide)
    "Directory does not exist".toList rfl

theorem discover_stats_eq (entry : WalkEntryInfo) (config : ScanConfigM)
    (discovered_so_far : Nat) :
    (discover_dependency_directory entry config discovered_so_far).emitted_stats =
      if entry.is_dir then
        maybe_emit_scan_stats entry.throttle_elapsed 0 discovered_so_far entry.path
      else none := by
  by_cases hd : entry.is_dir = true
  · rw [if_pos hd]
    simp only [discover_dependency_directory]
    rw [if_neg (by simp [hd])]
    split
    · rfl
    · split
      · rfl
      · split
        · rfl
        · split
          · rfl
          · rfl
  · rw [if_neg hd]
    simp [discover_dependency_directory, bool_eq_false hd]

/-- Claim C10: every scan_stats progress event emitted during discovery
carries total_size equal to 0 - the call site passes the literal 0 - while
directory_count is the number of directories discovered so far and
current_path is the path being examined. -/
theorem C10_discovery_stats_zero (entry : WalkEntryInfo) (config : ScanConfigM)
    (discovered_so_far : Nat) (s : ScanStats)
    (h : (discover_dependency_directory entry config discovered_so_far).emitted_stats =
      some s) :
    s.total_size = 0 ∧ s.directory_count = discovered_so_far ∧
      s.current_path = some entry.path := by
  rw [discover_stats_eq] at h
  by_cases hd : entry.is_dir = true
  · rw [if_pos hd] at h
    by_cases ht : entry.throttle_elapsed = true
    · simp only [maybe_emit_scan_stats, ht, if_pos rfl] at h
      injection h with h2
      subst h2
      exact ⟨rfl, rfl, rfl⟩
    · simp [maybe_emit_scan_stats, bool_eq_false ht] at h
  · rw [if_neg hd] at h
    exact absurd h (by simp)

/-- Claim C10 witness: a throttle-elapsed discovery step over a
node_modules entry emits stats with total_size 0. -/
theorem C10_discovery_stats_zero_witness :
    (discover_dependency_directory sampleWalkEntry sampleScanConfig 7).emitted_stats =
      some ⟨0, 7, some "home/app/node_modules".toList⟩ ∧
    ((⟨0, 7, some "home/app/node_modules".toList⟩ : ScanStats).total_size = 0 ∧
      (⟨0, 7, some "home/app/node_modules".toList⟩ : ScanStats).directory_count = 7 ∧
      (⟨0, 7, some "home/app/node_modules".toList⟩ : ScanStats).current_path =
        some sampleWalkEntry.path) := by
  have hstats : (discover_dependency_directory sampleWalkEntry sampleScanConfig 7).emitted_stats =
      some ⟨0, 7, some "home/app/node_modules".toList⟩ := by decide
  exact ⟨hstats,
    C10_discovery_stats_zero sampleWalkEntry sampleScanConfig 7
      ⟨0, 7, some "home/app/node_modules".toList⟩ hstats⟩
